import Mathlib

/-!
Verification of the field-extraction and confidence-scoring core of the
sourcestack-api repository (app/parsing.py), as a shallow embedding.

Conventions of the embedding:
- Python strings are modelled as `String`/`List Char`; all character class
  predicates (`\d`, `\s`, `\w`, `str.isupper`, `str.lower`) are modelled on the
  ASCII range, which covers every input the specification and tests exercise.
- Python floats are modelled as exact rationals (the score weights are short
  decimal literals).
- Each concrete regular expression of parsing.py is hand-compiled into a
  character-level matcher with Python's leftmost search, greedy/lazy
  quantifier preference and backtracking behaviour; `re.findall(p)[0]` with a
  single group is modelled as the leftmost match's group.
- The external phonenumbers library is not part of src/ and is modelled from
  the spec (see `pyParseE`, `validNum`).
-/

/-- Python-style orElse on Option, used to keep proofs by cases simple. -/
def oor {α : Type} (a b : Option α) : Option α :=
  match a with
  | some x => some x
  | none => b

/-- First `some` in a list of options (used for backtracking alternatives in
preference order). -/
def firstSome {α : Type} : List (Option α) → Option α
  | [] => none
  | o :: os => oor o (firstSome os)

-- ASCII character classes of the regexes in parsing.py.

def isUpC (c : Char) : Bool := 'A' ≤ c && c ≤ 'Z'

def isLoC (c : Char) : Bool := 'a' ≤ c && c ≤ 'z'

def isDigitC (c : Char) : Bool := '0' ≤ c && c ≤ '9'

def isAlphaC (c : Char) : Bool := isUpC c || isLoC c

def isAlnumC (c : Char) : Bool := isAlphaC c || isDigitC c

/-- Python regex `\w` (ASCII model). -/
def isWordC (c : Char) : Bool := isAlnumC c || c == '_'

/-- Python regex `\s` / `str.split()` whitespace (ASCII model). -/
def isSpacePy (c : Char) : Bool :=
  c == ' ' || c == '\t' || c == '\n' || c == '\r' || c == '\x0b' || c == '\x0c'

/-- Lower-case one character as Python str.lower does on ASCII. -/
def lowC (c : Char) : Char := if isUpC c then Char.ofNat (c.toNat + 32) else c

/-- Lower-case a character list. -/
def lowL (cs : List Char) : List Char := cs.map lowC

def squote : Char := Char.ofNat 39

def isQuoteC (c : Char) : Bool := c == '"' || c == squote

-- Generic matcher combinators.  A matcher consumes a suffix of the text and
-- returns (matched original characters, remaining characters).

/-- Case-insensitive literal: consumes the literal (compared lower-cased, as
under re.IGNORECASE) and returns the original characters consumed. -/
def eatCI : List Char → List Char → Option (List Char × List Char)
  | [], cs => some ([], cs)
  | _ :: _, [] => none
  | p :: ps, c :: cs =>
    if lowC c = lowC p then
      match eatCI ps cs with
      | some (m, r) => some (c :: m, r)
      | none => none
    else none

/-- Greedy `+` over a character class (maximal munch). -/
def eatSome (p : Char → Bool) : List Char → Option (List Char × List Char)
  | [] => none
  | c :: cs => if p c then some (c :: cs.takeWhile p, cs.dropWhile p) else none

/-- Greedy `*` over a character class followed by a continuation, with full
backtracking: longer runs are preferred, shorter runs are retried when the
continuation fails (Python semantics for e.g. `[\s:]*`). -/
def starThenK {α : Type} (p : Char → Bool) (k : List Char → Option α) : List Char → Option α
  | [] => k []
  | c :: cs => if p c then oor (starThenK p k cs) (k (c :: cs)) else k (c :: cs)

/-- Lazy `.*?` followed by a continuation: the continuation is tried at the
current position first, then one non-newline character is consumed and the
scan repeats (`.` does not match a newline without re.DOTALL). -/
def lazyThen {α : Type} (m : List Char → Option α) : List Char → Option α
  | [] => m []
  | c :: cs => oor (m (c :: cs)) (if c = '\n' then none else lazyThen m cs)

/-- re.search / first re.findall match: try the anchored matcher at each
position, leftmost first (every position including end of text). -/
def scanFor {α : Type} (m : List Char → Option α) : List Char → Option α
  | [] => m []
  | c :: cs => oor (m (c :: cs)) (scanFor m cs)

/-- Leftmost scan that also tracks the previous character, for `\b` word
boundaries. -/
def scanForB {α : Type} (m : Option Char → List Char → Option α) :
    Option Char → List Char → Option α
  | prev, [] => m prev []
  | prev, c :: cs => oor (m prev (c :: cs)) (scanForB m (some c) cs)

-- ===== extract_email (parsing.py lines 95-123) =====

/-- Local part class `[A-Za-z0-9._%+-]`. -/
def isLocalC (c : Char) : Bool :=
  isAlnumC c || c == '.' || c == '_' || c == '%' || c == '+' || c == '-'

/-- Domain class `[A-Za-z0-9.-]`. -/
def isDomC (c : Char) : Bool := isAlnumC c || c == '.' || c == '-'

/-- TLD class `[A-Z|a-z]` (the source's class literally contains a bar). -/
def isTldC (c : Char) : Bool := isAlphaC c || c == '|'

/-- The domain tail `[A-Za-z0-9.-]+\.[A-Z|a-z]{2,}` after the `@`: the greedy
`+` backtracks from the longest domain run, requiring a dot and then a greedy
TLD run of length at least two.  Returns (matched tail, rest). -/
def emDomSplit (r2 : List Char) : Option (List Char × List Char) :=
  let run := r2.takeWhile isDomC
  firstSome (((List.range run.length).reverse).map (fun i =>
    if (1 ≤ i) ∧ (run.get? i = some '.') then
      let b := (r2.drop (i + 1)).takeWhile isTldC
      if 2 ≤ b.length then some (run.take i ++ '.' :: b, r2.drop (i + 1 + b.length))
      else none
    else none))

/-- The email grammar `[A-Za-z0-9._%+-]+@[A-Za-z0-9.-]+\.[A-Z|a-z]{2,}`
anchored at the current position (no word boundaries; used inside the
mailto and keyword tiers). -/
def emCore (cs : List Char) : Option (List Char × List Char) :=
  match eatSome isLocalC cs with
  | some (lp, r1) =>
    match r1 with
    | '@' :: r2 =>
      match emDomSplit r2 with
      | some (dt, r3) => some (lp ++ '@' :: dt, r3)
      | none => none
    | _ => none
  | none => none

/-- Tier 1 pattern `mailto:\s*(addr)` anchored at the current position. -/
def emP1At (cs : List Char) : Option (List Char) :=
  match eatCI "mailto:".data cs with
  | some (_, r) => starThenK isSpacePy (fun r2 =>
      match emCore r2 with
      | some (m, _) => some m
      | none => none) r
  | none => none

/-- Tier 1 pattern `href=["']mailto:(addr)["']` anchored at the current
position. -/
def emP2At (cs : List Char) : Option (List Char) :=
  match eatCI "href=".data cs with
  | some (_, r1) =>
    match r1 with
    | q :: r2 =>
      if isQuoteC q then
        match eatCI "mailto:".data r2 with
        | some (_, r3) =>
          match emCore r3 with
          | some (m, r4) =>
            match r4 with
            | q2 :: _ => if isQuoteC q2 then some m else none
            | [] => none
          | none => none
        | none => none
      else none
    | [] => none
  | none => none

def isSpColonC (c : Char) : Bool := isSpacePy c || c == ':'

/-- Optional `(?:mailto:)?` before the address, with backtracking when the
address fails after the prefix. -/
def emMailtoOpt (r : List Char) : Option (List Char) :=
  match eatCI "mailto:".data r with
  | some (_, r1) =>
    oor (match emCore r1 with | some (m, _) => some m | none => none)
        (match emCore r with | some (m, _) => some m | none => none)
  | none => match emCore r with | some (m, _) => some m | none => none

/-- Optional `(?:href=["'])?` then optional `(?:mailto:)?` then the address,
with backtracking. -/
def emPrefOpt (r : List Char) : Option (List Char) :=
  match eatCI "href=".data r with
  | some (_, r1) =>
    match r1 with
    | q :: r2 => if isQuoteC q then oor (emMailtoOpt r2) (emMailtoOpt r) else emMailtoOpt r
    | [] => emMailtoOpt r
  | none => emMailtoOpt r

/-- Tier 2 keyword pattern
`(?:email|e-mail|mail)[\s:]*.*?(?:href=["'])?(?:mailto:)?(addr)` anchored at
the current position, alternatives in regex order with backtracking. -/
def emKwAt (cs : List Char) : Option (List Char) :=
  oor (match eatCI "email".data cs with
       | some (_, r) => starThenK isSpColonC (lazyThen emPrefOpt) r
       | none => none)
  (oor (match eatCI "e-mail".data cs with
        | some (_, r) => starThenK isSpColonC (lazyThen emPrefOpt) r
        | none => none)
       (match eatCI "mail".data cs with
        | some (_, r) => starThenK isSpColonC (lazyThen emPrefOpt) r
        | none => none))

def isWordOpt : Option Char → Bool
  | some c => isWordC c
  | none => false

/-- Trailing `\b` test: boundary between the last matched character and the
rest of the text (end of text counts as a non-word position). -/
def bEnd (m rest : List Char) : Bool :=
  match m.getLast?, rest with
  | some lc, r :: _ => isWordC lc != isWordC r
  | some lc, [] => isWordC lc
  | none, _ => false

/-- Domain tail of the tier 3 pattern with its trailing `\b`: backtracks over
the dot position (longest domain first) and over the TLD length (longest
first, minimum two) until the boundary holds. -/
def emDomSplitB (r2 : List Char) : Option (List Char) :=
  let run := r2.takeWhile isDomC
  firstSome (((List.range run.length).reverse).map (fun i =>
    if (1 ≤ i) ∧ (run.get? i = some '.') then
      let bmax := (r2.drop (i + 1)).takeWhile isTldC
      firstSome (((List.range (bmax.length + 1)).reverse).map (fun k =>
        if 2 ≤ k ∧ k ≤ bmax.length then
          let b := bmax.take k
          if bEnd b (r2.drop (i + 1 + k)) then some (run.take i ++ '.' :: b) else none
        else none))
    else none))

/-- Tier 3 fallback pattern `\b[A-Za-z0-9._%+-]+@[A-Za-z0-9.-]+\.[A-Z|a-z]{2,}\b`
anchored at the current position, given the previous character for the
leading `\b`. -/
def emT3At (prev : Option Char) (cs : List Char) : Option (List Char) :=
  match cs with
  | [] => none
  | c :: _ =>
    if (isWordOpt prev != isWordC c) && isLocalC c then
      match eatSome isLocalC cs with
      | some (lp, r1) =>
        match r1 with
        | '@' :: r2 =>
          match emDomSplitB r2 with
          | some dt => some (lp ++ '@' :: dt)
          | none => none
        | _ => none
      | none => none
    else none

/-- The first two tiers of extract_email: the two mailto patterns tried in
source order (first match of the first pattern that matches anywhere). -/
def emMailtoTier (cs : List Char) : Option (List Char) :=
  oor (scanFor emP1At cs) (scanFor emP2At cs)

/-- extract_email on character lists: mailto patterns, then the keyword
context search, then the general grammar, each result lower-cased. -/
def extEmL (cs : List Char) : Option (List Char) :=
  match emMailtoTier cs with
  | some a => some (lowL a)
  | none =>
    match scanFor emKwAt cs with
    | some a => some (lowL a)
    | none =>
      match scanForB emT3At none cs with
      | some a => some (lowL a)
      | none => none

/-- extract_email (parsing.py lines 95-123). -/
def extract_email (text : String) : Option String :=
  match extEmL text.data with
  | some a => some (String.mk a)
  | none => none

-- ===== extract_linkedin (parsing.py lines 166-213) =====

/-- LinkedIn username class `[a-zA-Z0-9\-]`. -/
def isUserL (c : Char) : Bool := isAlnumC c || c == '-'

/-- Anchored `https?://(?:www\.)?linkedin\.com/in/([a-zA-Z0-9\-]+)` tail after
the optional `www.` decision; returns (whole match, username group, rest).
The username run is maximal-munch: every continuation used on this matcher
(a quote character or end of pattern) is outside the username class, so
shortening the greedy run can never make a failed continuation succeed. -/
def liRest (pre r : List Char) : Option (List Char × List Char × List Char) :=
  match eatCI "linkedin.com/in/".data r with
  | some (d, r1) =>
    match eatSome isUserL r1 with
    | some (u, r2) => some (pre ++ d ++ u, u, r2)
    | none => none
  | none => none

/-- Optional `(?:www\.)?` with backtracking into the rest of the URL. -/
def liWww (pre r : List Char) : Option (List Char × List Char × List Char) :=
  match eatCI "www.".data r with
  | some (w, r1) => oor (liRest (pre ++ w) r1) (liRest pre r)
  | none => liRest pre r

/-- Anchored `https?://(?:www\.)?linkedin\.com/in/([a-zA-Z0-9\-]+)`; the
scheme alternative prefers the `s` branch as the greedy `s?` does. -/
def matchLiUrl (cs : List Char) : Option (List Char × List Char × List Char) :=
  match eatCI "https://".data cs with
  | some (m, r) => liWww m r
  | none =>
    match eatCI "http://".data cs with
    | some (m, r) => liWww m r
    | none => none

/-- Tier 1 pattern `href=["'](https?://(?:www\.)?linkedin\.com/in/[a-zA-Z0-9\-]+)["']`
anchored at the current position; the group is the URL. -/
def liHref1At (cs : List Char) : Option (List Char) :=
  match eatCI "href=".data cs with
  | some (_, r1) =>
    match r1 with
    | q :: r2 =>
      if isQuoteC q then
        match matchLiUrl r2 with
        | some (m, _, r3) =>
          match r3 with
          | q2 :: _ => if isQuoteC q2 then some m else none
          | [] => none
        | none => none
      else none
    | [] => none
  | none => none

/-- Tier 1 pattern `href=["'](linkedin\.com/in/[a-zA-Z0-9\-]+)["']` anchored at
the current position. -/
def liHref2At (cs : List Char) : Option (List Char) :=
  match eatCI "href=".data cs with
  | some (_, r1) =>
    match r1 with
    | q :: r2 =>
      if isQuoteC q then
        match eatCI "linkedin.com/in/".data r2 with
        | some (d, r3) =>
          match eatSome isUserL r3 with
          | some (u, r4) =>
            match r4 with
            | q2 :: _ => if isQuoteC q2 then some (d ++ u) else none
            | [] => none
          | none => none
        | none => none
      else none
    | [] => none
  | none => none

/-- The whole-match component of the LinkedIn URL matcher (group(0) /
group(1) uses). -/
def liUrlFst (r : List Char) : Option (List Char) :=
  match matchLiUrl r with
  | some (m, _, _) => some m
  | none => none

/-- Optional `(?:href=["'])?` before the captured URL, with backtracking. -/
def liOptHref (r : List Char) : Option (List Char) :=
  match eatCI "href=".data r with
  | some (_, r1) =>
    match r1 with
    | q :: r2 =>
      if isQuoteC q then oor (liUrlFst r2) (liUrlFst r)
      else liUrlFst r
    | [] => liUrlFst r
  | none => liUrlFst r

/-- Tier 2 keyword pattern
`(?:linkedin|linked\s*in)[\s:]*.*?(?:href=["'])?(https?://(?:www\.)?linkedin\.com/in/[a-zA-Z0-9\-]+)`
anchored at the current position. -/
def liKwAt (cs : List Char) : Option (List Char) :=
  oor (match eatCI "linkedin".data cs with
       | some (_, r) => starThenK isSpColonC (lazyThen liOptHref) r
       | none => none)
      (match eatCI "linked".data cs with
       | some (_, r) => starThenK isSpacePy (fun r2 =>
           match eatCI "in".data r2 with
           | some (_, r3) => starThenK isSpColonC (lazyThen liOptHref) r3
           | none => none) r
       | none => none)

/-- Tier 3 pattern `https?://(?:www\.)?linkedin\.com/in/([a-zA-Z0-9\-]+)`:
the group is the username. -/
def liP31At (cs : List Char) : Option (List Char) :=
  match matchLiUrl cs with
  | some (_, u, _) => some u
  | none => none

/-- Tier 3 pattern `linkedin\.com/in/([a-zA-Z0-9\-]+)`. -/
def liP32At (cs : List Char) : Option (List Char) :=
  match eatCI "linkedin.com/in/".data cs with
  | some (_, r1) =>
    match eatSome isUserL r1 with
    | some (u, _) => some u
    | none => none
  | none => none

/-- Tier 3 pattern `www\.linkedin\.com/in/([a-zA-Z0-9\-]+)`. -/
def liP33At (cs : List Char) : Option (List Char) :=
  match eatCI "www.linkedin.com/in/".data cs with
  | some (_, r1) =>
    match eatSome isUserL r1 with
    | some (u, _) => some u
    | none => none
  | none => none

/-- Tier 3 pattern `linkedin\.com/profile/view\?id=([a-zA-Z0-9\-]+)` (the
legacy profile form; the source still builds an /in/ URL from its capture). -/
def liP34At (cs : List Char) : Option (List Char) :=
  match eatCI "linkedin.com/profile/view?id=".data cs with
  | some (_, r1) =>
    match eatSome isUserL r1 with
    | some (u, _) => some u
    | none => none
  | none => none

/-- The normalization applied to tier 1 captures: `https://www.` is prefixed
only when the capture does not already start with the literal `http`. -/
def liFix (u : List Char) : List Char :=
  if "http".data.isPrefixOf u then u else "https://www.".data ++ u

/-- extract_linkedin on character lists (tier cascade in source order). -/
def extLiL (cs : List Char) : Option (List Char) :=
  match scanFor liHref1At cs with
  | some u => some (liFix u)
  | none =>
  match scanFor liHref2At cs with
  | some u => some (liFix u)
  | none =>
  match scanFor liKwAt cs with
  | some u => some u
  | none =>
  match scanFor liP31At cs with
  | some u => some ("https://www.linkedin.com/in/".data ++ u)
  | none =>
  match scanFor liP32At cs with
  | some u => some ("https://www.linkedin.com/in/".data ++ u)
  | none =>
  match scanFor liP33At cs with
  | some u => some ("https://www.linkedin.com/in/".data ++ u)
  | none =>
  match scanFor liP34At cs with
  | some u => some ("https://www.linkedin.com/in/".data ++ u)
  | none =>
  match scanFor (fun r => eatCI "linkedin.com/in/".data r) cs with
  | some _ => scanFor liUrlFst cs
  | none => none

/-- extract_linkedin (parsing.py lines 166-213). -/
def extract_linkedin (text : String) : Option String :=
  match extLiL text.data with
  | some a => some (String.mk a)
  | none => none

-- ===== extract_github (parsing.py lines 215-261) =====

/-- Stops of the github username tail
`(?:[a-zA-Z0-9]|-(?=[a-zA-Z0-9])){0,38}` in backtracking preference order
(more iterations first), with the hyphen alternative guarded by its
lookahead. -/
def ghTailStops : Nat → List Char → List (List Char × List Char)
  | 0, cs => [([], cs)]
  | _ + 1, [] => [([], [])]
  | n + 1, c :: cs =>
    if isAlnumC c then
      (ghTailStops n cs).map (fun p => (c :: p.1, p.2)) ++ [([], c :: cs)]
    else if c == '-' then
      match cs with
      | d :: _ =>
        if isAlnumC d then
          (ghTailStops n cs).map (fun p => (c :: p.1, p.2)) ++ [([], c :: cs)]
        else [([], c :: cs)]
      | [] => [([], c :: cs)]
    else [([], c :: cs)]

/-- Match of `[a-zA-Z0-9](?:[a-zA-Z0-9]|-(?=[a-zA-Z0-9])){0,38}` with an
explicit continuation, tried on each quantifier stop in preference order. -/
def ghUserThen {α : Type} (k : List Char → List Char → Option α) (cs : List Char) : Option α :=
  match cs with
  | [] => none
  | c :: rest =>
    if isAlnumC c then
      firstSome ((ghTailStops 38 rest).map (fun p => k (c :: p.1) p.2))
    else none

/-- Tail of `https?://(?:www\.)?github\.com/(user)`: the continuation `k`
receives (whole match, username group, rest). -/
def ghRest {α : Type} (k : List Char → List Char → List Char → Option α)
    (pre r : List Char) : Option α :=
  match eatCI "github.com/".data r with
  | some (d, r1) => ghUserThen (fun u r2 => k (pre ++ d ++ u) u r2) r1
  | none => none

/-- Optional `(?:www\.)?` with backtracking. -/
def ghWww {α : Type} (k : List Char → List Char → List Char → Option α)
    (pre r : List Char) : Option α :=
  match eatCI "www.".data r with
  | some (w, r1) => oor (ghRest k (pre ++ w) r1) (ghRest k pre r)
  | none => ghRest k pre r

/-- Anchored `https?://(?:www\.)?github\.com/([a-zA-Z0-9](?:[a-zA-Z0-9]|-(?=[a-zA-Z0-9])){0,38})`
with continuation `k` (whole match, username group, rest). -/
def matchGhUrl {α : Type} (k : List Char → List Char → List Char → Option α)
    (cs : List Char) : Option α :=
  match eatCI "https://".data cs with
  | some (m, r) => ghWww k m r
  | none =>
    match eatCI "http://".data cs with
    | some (m, r) => ghWww k m r
    | none => none

/-- Tier 1 pattern `href=["'](https?://(?:www\.)?github\.com/USER)["']`. -/
def ghHref1At (cs : List Char) : Option (List Char) :=
  match eatCI "href=".data cs with
  | some (_, r1) =>
    match r1 with
    | q :: r2 =>
      if isQuoteC q then
        matchGhUrl (fun m _ r3 =>
          match r3 with
          | q2 :: _ => if isQuoteC q2 then some m else none
          | [] => none) r2
      else none
    | [] => none
  | none => none

/-- Tier 1 pattern `href=["'](github\.com/USER)["']`. -/
def ghHref2At (cs : List Char) : Option (List Char) :=
  match eatCI "href=".data cs with
  | some (_, r1) =>
    match r1 with
    | q :: r2 =>
      if isQuoteC q then
        match eatCI "github.com/".data r2 with
        | some (d, r3) =>
          ghUserThen (fun u r4 =>
            match r4 with
            | q2 :: _ => if isQuoteC q2 then some (d ++ u) else none
            | [] => none) r3
        | none => none
      else none
    | [] => none
  | none => none

/-- Optional `(?:href=["'])?` before the captured URL, with backtracking. -/
def ghOptHref (r : List Char) : Option (List Char) :=
  match eatCI "href=".data r with
  | some (_, r1) =>
    match r1 with
    | q :: r2 =>
      if isQuoteC q then
        oor (matchGhUrl (fun m _ _ => some m) r2) (matchGhUrl (fun m _ _ => some m) r)
      else matchGhUrl (fun m _ _ => some m) r
    | [] => matchGhUrl (fun m _ _ => some m) r
  | none => matchGhUrl (fun m _ _ => some m) r

/-- Tier 2 keyword pattern
`(?:github|git\s*hub)[\s:]*.*?(?:href=["'])?(https?://(?:www\.)?github\.com/USER)`. -/
def ghKwAt (cs : List Char) : Option (List Char) :=
  oor (match eatCI "github".data cs with
       | some (_, r) => starThenK isSpColonC (lazyThen ghOptHref) r
       | none => none)
      (match eatCI "git".data cs with
       | some (_, r) => starThenK isSpacePy (fun r2 =>
           match eatCI "hub".data r2 with
           | some (_, r3) => starThenK isSpColonC (lazyThen ghOptHref) r3
           | none => none) r
       | none => none)

/-- Tier 3 pattern `https?://(?:www\.)?github\.com/(USER)`. -/
def ghP31At (cs : List Char) : Option (List Char) :=
  matchGhUrl (fun _ u _ => some u) cs

/-- Tier 3 pattern `github\.com/(USER)`. -/
def ghP32At (cs : List Char) : Option (List Char) :=
  match eatCI "github.com/".data cs with
  | some (_, r1) => ghUserThen (fun u _ => some u) r1
  | none => none

/-- Tier 3 pattern `www\.github\.com/(USER)`. -/
def ghP33At (cs : List Char) : Option (List Char) :=
  match eatCI "www.github.com/".data cs with
  | some (_, r1) => ghUserThen (fun u _ => some u) r1
  | none => none

/-- The normalization applied to tier 1 captures: `https://` is prefixed only
when the capture does not already start with the literal `http`. -/
def ghFix (u : List Char) : List Char :=
  if "http".data.isPrefixOf u then u else "https://".data ++ u

/-- extract_github on character lists (tier cascade in source order). -/
def extGhL (cs : List Char) : Option (List Char) :=
  match scanFor ghHref1At cs with
  | some u => some (ghFix u)
  | none =>
  match scanFor ghHref2At cs with
  | some u => some (ghFix u)
  | none =>
  match scanFor ghKwAt cs with
  | some u => some u
  | none =>
  match scanFor ghP31At cs with
  | some u => some ("https://github.com/".data ++ u)
  | none =>
  match scanFor ghP32At cs with
  | some u => some ("https://github.com/".data ++ u)
  | none =>
  match scanFor ghP33At cs with
  | some u => some ("https://github.com/".data ++ u)
  | none =>
  match scanFor (fun r => eatCI "github.com/".data r) cs with
  | some _ => scanFor (matchGhUrl (fun m _ _ => some m)) cs
  | none => none

/-- extract_github (parsing.py lines 215-261). -/
def extract_github (text : String) : Option String :=
  match extGhL text.data with
  | some a => some (String.mk a)
  | none => none

-- ===== normalize_phone (parsing.py lines 125-164) =====

/-- The separator set stripped by normalize_phone's
`re.sub(r'[\s\-\(\)\.]', '', text)` (ASCII model of `\s`). -/
def isSepRe (c : Char) : Bool :=
  isSpacePy c || c == '-' || c == '(' || c == ')' || c == '.'

/-- Separator stripping (`re.sub(r'[\s\-\(\)\.]', '', text)`). -/
def stripSeps (t : List Char) : List Char := t.filter (fun c => !(isSepRe c))

/-- The only exception phonenumbers.parse raises (its documented contract);
the source catches exactly this exception. -/
inductive PyExc : Type
  | numberParseException : PyExc
deriving DecidableEq

/-- Modelled from the spec: `phonenumbers.parse(text, None)` of the external
phonenumbers library, which is not part of src/.  Per spec section 4.2 and
the design note in section 9, parsing with no default region succeeds only
when the input carries an explicit `+`-prefixed country code (after common
separators) and otherwise raises NumberParseException; bare national-format
numbers fail and fall through.  The parsed value is modelled as the digit
string after the `+`. -/
def pyParseE (t : List Char) : Except PyExc (List Char) :=
  match stripSeps t with
  | '+' :: rest =>
    if !rest.isEmpty && rest.all isDigitC then Except.ok rest
    else Except.error PyExc.numberParseException
  | _ => Except.error PyExc.numberParseException

/-- Modelled from the spec: `phonenumbers.is_valid_number` of the external
phonenumbers library, restricted to the numbering plan the spec exercises
(its India-biased examples): a number is modelled valid precisely when it is
country code 91 followed by a ten-digit Indian mobile number, whose leading
digit is 6-9 (the libphonenumber metadata pattern `[6-9]\d{9}` for IN
mobiles, matching the repository's tests). -/
def validNum (n : List Char) : Bool :=
  n.length = 12 && "91".data.isPrefixOf n &&
  (match n.drop 2 with
   | d :: _ => d == '6' || d == '7' || d == '8' || d == '9'
   | [] => false) &&
  n.all isDigitC

/-- Modelled from the spec: E.164 formatting of a parsed number (glossary:
`+<country code><national number>`, no separators). -/
def fmtE164 (n : List Char) : List Char := '+' :: n

/-- Maximal digit runs of a string (helper for `\d{7,15}` findall). -/
def maxRunsAux : List Char → List Char → List (List Char)
  | acc, [] => if acc.isEmpty then [] else [acc.reverse]
  | acc, c :: cs =>
    if isDigitC c then maxRunsAux (c :: acc) cs
    else if acc.isEmpty then maxRunsAux [] cs
    else acc.reverse :: maxRunsAux [] cs

def maxRuns (cs : List Char) : List (List Char) := maxRunsAux [] cs

/-- Successive `\d{7,15}` matches inside one maximal digit run: greedy
15-digit chunks while at least 7 digits remain (re.findall semantics of
non-overlapping leftmost matches).  Fuel-based structural recursion: the fuel
`r.length` dominates the iteration count, since every step drops 15
characters. -/
def chunk15Aux : Nat → List Char → List (List Char)
  | 0, _ => []
  | fuel + 1, r =>
    if 7 ≤ r.length then r.take 15 :: chunk15Aux fuel (r.drop 15) else []

def chunk15 (r : List Char) : List (List Char) := chunk15Aux r.length r

/-- All matches of `re.findall(r'\d{7,15}', cleaned)` in document order. -/
def phoneMatches (cleaned : List Char) : List (List Char) :=
  (maxRuns cleaned).flatMap chunk15

/-- Candidate construction of the digit-run loop: 10 digits get `+91`, at
least 10 get `+`, shorter runs stay bare. -/
def mkCand (m : List Char) : List Char :=
  if m.length = 10 then '+' :: '9' :: '1' :: m
  else if 10 ≤ m.length then '+' :: m
  else m

/-- The candidate loop of normalize_phone: validated parse of each candidate
in order, parse failures skipped. -/
def candLoop : List (List Char) → Option (List Char)
  | [] => none
  | m :: ms =>
    match pyParseE (mkCand m) with
    | Except.ok n => if validNum n then some (fmtE164 n) else candLoop ms
    | Except.error _ => candLoop ms

/-- Digit-run recovery phase of normalize_phone (steps 2-4). -/
def phase2 (t : List Char) : Option (List Char) :=
  candLoop (phoneMatches (stripSeps t))

/-- normalize_phone on character lists: direct parse of the whole text, then
the digit-run loop. -/
def normalize_phoneL (t : List Char) : Option (List Char) :=
  match pyParseE t with
  | Except.ok n => if validNum n then some (fmtE164 n) else phase2 t
  | Except.error _ => phase2 t

/-- normalize_phone (parsing.py lines 125-164). -/
def normalize_phone (text : String) : Option String :=
  match normalize_phoneL text.data with
  | some a => some (String.mk a)
  | none => none

/-- Python try/except NumberParseException as an explicit handler on the
exception monad. -/
def catchNpe {α : Type} (x : Except PyExc α) (h : Except PyExc α) : Except PyExc α :=
  match x with
  | Except.error PyExc.numberParseException => h
  | other => other

/-- Exception-tracking candidate loop: the body may raise, the handler
continues with the next candidate (the `except NumberParseException:
continue` of the source). -/
def candLoopE : List (List Char) → Except PyExc (Option (List Char))
  | [] => Except.ok none
  | m :: ms =>
    catchNpe
      (match pyParseE (mkCand m) with
       | Except.ok n => if validNum n then Except.ok (some (fmtE164 n)) else candLoopE ms
       | Except.error e => Except.error e)
      (candLoopE ms)

def phase2E (t : List Char) : Except PyExc (Option (List Char)) :=
  candLoopE (phoneMatches (stripSeps t))

/-- Exception-tracking normalize_phone: any exception not caught by the
source's two try/except blocks would surface as `Except.error`. -/
def normalize_phoneE (t : List Char) : Except PyExc (Option (List Char)) :=
  catchNpe
    (match pyParseE t with
     | Except.ok n => if validNum n then Except.ok (some (fmtE164 n)) else phase2E t
     | Except.error e => Except.error e)
    (phase2E t)

-- ===== guess_name (parsing.py lines 271-302) =====

/-- Python `text.split('\n')`. -/
def splitNl : List Char → List (List Char)
  | [] => [[]]
  | c :: cs =>
    if c = '\n' then [] :: splitNl cs
    else
      match splitNl cs with
      | l :: ls => (c :: l) :: ls
      | [] => [[c]]

/-- Python `str.strip()` (ASCII whitespace model). -/
def stripPy (l : List Char) : List Char :=
  ((l.dropWhile isSpacePy).reverse.dropWhile isSpacePy).reverse

/-- Python `str.split()` with no separator: words between whitespace runs. -/
def wordsAux : List Char → List Char → List (List Char)
  | acc, [] => if acc.isEmpty then [] else [acc.reverse]
  | acc, c :: cs =>
    if isSpacePy c then
      if acc.isEmpty then wordsAux [] cs else acc.reverse :: wordsAux [] cs
    else wordsAux (c :: acc) cs

def wordsPy (l : List Char) : List (List Char) := wordsAux [] l

/-- Substring test (Python `in` on strings). -/
def containsSub (pat : List Char) : List Char → Bool
  | [] => pat.isEmpty
  | c :: cs => pat.isPrefixOf (c :: cs) || containsSub pat cs

def kwList : List (List Char) :=
  ["email".data, "phone".data, "contact".data, "mobile".data, "tel".data]

/-- One of the contact keywords occurs in the lower-cased line. -/
def hasKw (l : List Char) : Bool := kwList.any (fun k => containsSub k (lowL l))

/-- The lines appended to the candidate pool: for each keyword line at index
i among the first 50 lines with i > 0, the line at index i-1. -/
def contactAdjAux (lines : List (List Char)) : Nat → List (List Char) → List (List Char)
  | _, [] => []
  | i, l :: ls =>
    if 0 < i && hasKw l then
      match lines.get? (i - 1) with
      | some prev => prev :: contactAdjAux lines (i + 1) ls
      | none => contactAdjAux lines (i + 1) ls
    else contactAdjAux lines (i + 1) ls

def contactAdj (lines : List (List Char)) : List (List Char) :=
  contactAdjAux lines 0 (lines.take 50)

/-- Python `re.match(r'^\+?\d', line)` as a Boolean (ASCII `\d`). -/
def startsPlusDigit : List Char → Bool
  | [] => false
  | '+' :: rest =>
    match rest with
    | c :: _ => isDigitC c
    | [] => false
  | c :: _ => isDigitC c

/-- First character of a word is uppercase (`word[0].isupper()`, ASCII). -/
def wordHeadUpper : List Char → Bool
  | c :: _ => isUpC c
  | [] => false

/-- The per-line filter of guess_name on the stripped line: skip blank
lines, skip lines with `@` / leading optional-plus digit / length over 50,
then accept 2-4 words each starting with an uppercase character. -/
def nameFilterS (s : List Char) : Option (List Char) :=
  if s.isEmpty then none
  else if s.contains '@' || startsPlusDigit s || decide (50 < s.length) then none
  else if (2 ≤ (wordsPy s).length && (wordsPy s).length ≤ 4)
          && (wordsPy s).all wordHeadUpper then some s
  else none

/-- The per-line filter of guess_name (the loop body rebinds the line to its
stripped form first). -/
def nameFilter (l : List Char) : Option (List Char) := nameFilterS (stripPy l)

/-- First candidate line passing all filters. -/
def scanCands : List (List Char) → Option (List Char)
  | [] => none
  | c :: cs => oor (nameFilter c) (scanCands cs)

/-- guess_name on character lists: first 30 lines plus the
contact-adjacent lines, scanned in order. -/
def guessNameL (cs : List Char) : Option (List Char) :=
  let lines := splitNl cs
  scanCands (lines.take 30 ++ contactAdj lines)

/-- guess_name (parsing.py lines 271-302). -/
def guess_name (text : String) : Option String :=
  match guessNameL text.data with
  | some a => some (String.mk a)
  | none => none

-- ===== score_confidence (parsing.py lines 304-325) =====

/-- Python truthiness of an optional string (`if email:`): None and the
empty string are falsy.  Spec section 4.5 calls this presence
("non-None/non-empty"). -/
def pyTruthy : Option String → Bool
  | none => false
  | some s => !s.data.isEmpty

-- Python floats are IEEE-754 binary64 values.  They are modelled exactly:
-- a nonnegative double is a dyadic pair (n, k) : Nat x Nat denoting n / 2^k,
-- every literal and every addition is rounded to 53 significand bits (round
-- to nearest, ties to even), and the final value is read back as the exact
-- rational the double denotes.  The computation is all-Nat so that concrete
-- scores evaluate inside the kernel; the model is bit-exact for the normal
-- range, which covers every value the scorer can compute.

/-- Does 2^e <= a/b hold (a, b positive)? -/
def pow2le (e : Int) (a b : Nat) : Bool :=
  if 0 ≤ e then b * 2 ^ e.toNat ≤ a else b ≤ a * 2 ^ (-e).toNat

/-- Fuel-based binary logarithm (Nat.log2 is defined by well-founded
recursion, which the kernel cannot evaluate; the fuel n dominates the
iteration count). -/
def log2F : Nat → Nat → Nat
  | _, 0 => 0
  | n, fuel + 1 => if 2 ≤ n then log2F (n / 2) fuel + 1 else 0

def natLog2 (n : Nat) : Nat := log2F n n

/-- Floor of the base-two logarithm of the positive fraction a/b, located by
testing the two candidates around log2 a - log2 b. -/
def floorLog2F (a b : Nat) : Int :=
  let c : Int := (natLog2 a : Int) - (natLog2 b : Int)
  if pow2le (c + 1) a b then c + 1 else if pow2le c a b then c else c - 1

/-- Round the nonnegative fraction a/b to IEEE-754 binary64 (53 significand
bits, round to nearest, ties to even), as a dyadic pair (n, k) with value
n / 2^k. -/
def roundFrac (a b : Nat) : Nat × Nat :=
  if a = 0 then (0, 0)
  else
    let e := floorLog2F a b
    let num := if 0 ≤ 52 - e then a * 2 ^ (52 - e).toNat else a
    let den := if 0 ≤ 52 - e then b else b * 2 ^ (e - 52).toNat
    let q := num / den
    let r := num % den
    let q2 := if 2 * r < den then q
              else if den < 2 * r then q + 1
              else if q % 2 = 0 then q else q + 1
    if 0 ≤ 52 - e then (q2, (52 - e).toNat) else (q2 * 2 ^ (e - 52).toNat, 0)

/-- IEEE binary64 addition of two nonnegative dyadic doubles: exact sum,
then rounding. -/
def addDy (x y : Nat × Nat) : Nat × Nat :=
  roundFrac (x.1 * 2 ^ y.2 + y.1 * 2 ^ x.2) (2 ^ (x.2 + y.2))

/-- Python min on two dyadic doubles (first argument on ties). -/
def minDy (x y : Nat × Nat) : Nat × Nat :=
  if x.1 * 2 ^ y.2 ≤ y.1 * 2 ^ x.2 then x else y

/-- The exact rational value of a dyadic double. -/
def dyadQ (p : Nat × Nat) : ℚ := (p.1 : ℚ) / 2 ^ p.2

/-- The doubles the source's float literals denote. -/
def w040 : Nat × Nat := roundFrac 4 10

def w025 : Nat × Nat := roundFrac 25 100

def w015 : Nat × Nat := roundFrac 15 100

def w010 : Nat × Nat := roundFrac 1 10

def w005 : Nat × Nat := roundFrac 5 100

def oneD : Nat × Nat := roundFrac 1 1

/-- The binary64 evaluation of score_confidence's weighted presence sum:
sequential rounded additions in source order, clamped to 1.0. -/
def scoreD (email phone name linkedin github ocr_used : Bool) : Nat × Nat :=
  let s0 : Nat × Nat := (0, 0)
  let s1 := if email then addDy s0 w040 else s0
  let s2 := if phone then addDy s1 w025 else s1
  let s3 := if name then addDy s2 w015 else s2
  let s4 := if linkedin then addDy s3 w010 else s3
  let s5 := if github then addDy s4 w005 else s4
  let s6 := if !ocr_used then addDy s5 w005 else s5
  minDy s6 oneD

/-- The claim-side additive formula as an exact rational: the binary64
weighted presence sum, clamped to 1.0. -/
def scoreOfPresence (email phone name linkedin github ocr_used : Bool) : ℚ :=
  dyadQ (scoreD email phone name linkedin github ocr_used)

/-- score_confidence (parsing.py lines 304-325); Python float literals and
additions modelled as exact binary64 arithmetic over the truthiness of each
field. -/
def score_confidence (name email phone linkedin github : Option String)
    (ocr_used : Bool) : ℚ :=
  scoreOfPresence (pyTruthy email) (pyTruthy phone) (pyTruthy name)
    (pyTruthy linkedin) (pyTruthy github) ocr_used

-- ===== extract_fields and parse_resume_bytes (parsing.py lines 263-384) =====

/-- extract_fields (parsing.py lines 263-269). -/
def extract_fields (text : String) :
    Option String × Option String × Option String × Option String :=
  (extract_email text, normalize_phone text, extract_linkedin text, extract_github text)

/-- The parsed dict returned by parse_resume_bytes. -/
structure ParsedResume where
  name : Option String
  email : Option String
  phone : Option String
  linkedin : Option String
  github : Option String
  confidence : ℚ
deriving DecidableEq

/-- The all-None, zero-confidence dict of the error paths. -/
def emptyParsed : ParsedResume :=
  { name := none, email := none, phone := none, linkedin := none,
    github := none, confidence := 0.0 }

def pyLowerS (s : String) : String := String.mk (lowL s.data)

/-- Python `str.endswith` on character lists. -/
def endsWithPy (s suf : List Char) : Bool := suf.isSuffixOf s

/-- parse_resume_bytes (parsing.py lines 327-384).  The byte decoders
pdf_text_with_ocr_fallback and docx_text depend on external PDF/OCR/DOCX
libraries and are abstracted as parameters over an opaque byte type; an
`Except.error` models an exception escaping them, caught by the function's
top-level try/except. -/
def parse_resume_bytes {β : Type}
    (pdf_text_with_ocr_fallback : β → Except String (String × Bool))
    (docx_text : β → Except String String)
    (filename : String) (data : β) : ParsedResume × List String × Bool :=
  let fl := lowL filename.data
  if endsWithPy fl ".pdf".data then
    match pdf_text_with_ocr_fallback data with
    | Except.ok (text, ocr_used) =>
      let f := extract_fields text
      let n := guess_name text
      ({ name := n, email := f.1, phone := f.2.1, linkedin := f.2.2.1,
         github := f.2.2.2,
         confidence := score_confidence n f.1 f.2.1 f.2.2.1 f.2.2.2 ocr_used },
       [], ocr_used)
    | Except.error e => (emptyParsed, ["Parse error: " ++ e], false)
  else if endsWithPy fl ".docx".data then
    match docx_text data with
    | Except.ok text =>
      let f := extract_fields text
      let n := guess_name text
      ({ name := n, email := f.1, phone := f.2.1, linkedin := f.2.2.1,
         github := f.2.2.2,
         confidence := score_confidence n f.1 f.2.1 f.2.2.1 f.2.2.2 false },
       [], false)
    | Except.error e => (emptyParsed, ["Parse error: " ++ e], false)
  else
    (emptyParsed, ["Unsupported file type: " ++ filename], false)

/-- One full run of the pure extraction pipeline on decoded text (the
composition the spec's idempotence property quantifies over). -/
def run_pipeline (text : String) (ocr_used : Bool) :
    (Option String × Option String × Option String × Option String) ×
    Option String × ℚ :=
  let f := extract_fields text
  let n := guess_name text
  (f, n, score_confidence n f.1 f.2.1 f.2.2.1 f.2.2.2 ocr_used)

/-- Two successive runs of the pipeline on the same input. -/
def run_pipeline_twice (text : String) (ocr_used : Bool) :=
  (run_pipeline text ocr_used, run_pipeline text ocr_used)

-- ===== Generic lemmas about the combinators =====

theorem oor_eq_some {α : Type} {a b : Option α} {c : α} :
    oor a b = some c ↔ a = some c ∨ (a = none ∧ b = some c) := by
  cases a <;> simp [oor]

theorem firstSome_eq_some {α : Type} :
    ∀ {l : List (Option α)} {a : α}, firstSome l = some a → some a ∈ l := by
  intro l
  induction l with
  | nil => intro a h; simp [firstSome] at h
  | cons o os ih =>
    intro a h
    rw [firstSome, oor_eq_some] at h
    rcases h with h | ⟨_, h⟩
    · exact h ▸ List.mem_cons_self o os
    · exact List.mem_cons_of_mem o (ih h)

theorem isUpC_iff (c : Char) : isUpC c = true ↔ 65 ≤ c.toNat ∧ c.toNat ≤ 90 := by
  simp only [isUpC, Bool.and_eq_true, decide_eq_true_eq]
  exact Iff.rfl

theorem lowC_of_up {c : Char} (h : isUpC c = true) :
    (lowC c).toNat = c.toNat + 32 := by
  have hn := (isUpC_iff c).mp h
  unfold lowC
  rw [if_pos h]
  unfold Char.ofNat
  split
  · rfl
  · next hv => exact absurd (Or.inl (by omega)) hv

theorem lowC_lowC (c : Char) : lowC (lowC c) = lowC c := by
  by_cases h : isUpC c = true
  · have h2 : (lowC c).toNat = c.toNat + 32 := lowC_of_up h
    have h3 : isUpC (lowC c) = false := by
      rw [Bool.eq_false_iff]
      intro hu
      rw [isUpC_iff] at hu h
      omega
    show (if isUpC (lowC c) then _ else lowC c) = lowC c
    rw [h3]
    simp
  · have h0 : isUpC c = false := Bool.eq_false_iff.mpr h
    have h1 : lowC c = c := by simp [lowC, h0]
    rw [h1, h1]

theorem lowL_idem (l : List Char) : lowL (lowL l) = lowL l := by
  unfold lowL
  rw [List.map_map]
  exact List.map_congr_left (fun c _ => lowC_lowC c)

theorem eatCI_spec :
    ∀ {p cs m r : List Char}, eatCI p cs = some (m, r) → lowL m = lowL p ∧ cs = m ++ r := by
  intro p
  induction p with
  | nil =>
    intro cs m r h
    simp only [eatCI] at h
    cases h
    exact ⟨rfl, rfl⟩
  | cons x xs ih =>
    intro cs m r h
    cases cs with
    | nil => simp [eatCI] at h
    | cons c cs' =>
      simp only [eatCI] at h
      split at h
      · next heq =>
        cases hrec : eatCI xs cs' with
        | none => rw [hrec] at h; cases h
        | some pr =>
          rw [hrec] at h
          cases pr with
          | mk m' r' =>
            cases h
            obtain ⟨h1, h2⟩ := ih hrec
            constructor
            · simpa [lowL, heq] using h1
            · simp [h2]
      · cases h

theorem isPrefixOf_append {p a : List Char} (b : List Char)
    (h : p.isPrefixOf a = true) : p.isPrefixOf (a ++ b) = true := by
  induction p generalizing a with
  | nil => exact List.isPrefixOf_nil_left
  | cons x xs ih =>
    cases a with
    | nil => exact Bool.noConfusion h
    | cons c cs =>
      simp only [List.isPrefixOf, Bool.and_eq_true] at h
      show (x == c && xs.isPrefixOf (cs ++ b)) = true
      simp only [Bool.and_eq_true]
      exact ⟨h.1, ih h.2⟩

theorem isPrefixOf_lowL {p a : List Char} (h : p.isPrefixOf a = true) :
    (lowL p).isPrefixOf (lowL a) = true := by
  induction p generalizing a with
  | nil => exact List.isPrefixOf_nil_left
  | cons x xs ih =>
    cases a with
    | nil => exact Bool.noConfusion h
    | cons c cs =>
      simp only [List.isPrefixOf, Bool.and_eq_true, beq_iff_eq] at h
      show (lowC x == lowC c && (lowL xs).isPrefixOf (lowL cs)) = true
      simp only [Bool.and_eq_true, beq_iff_eq]
      exact ⟨by rw [h.1], ih h.2⟩

theorem scanFor_some {α : Type} {m : List Char → Option α} :
    ∀ {cs : List Char} {a : α}, scanFor m cs = some a → ∃ cs', m cs' = some a := by
  intro cs
  induction cs with
  | nil => intro a h; exact ⟨[], by simpa [scanFor] using h⟩
  | cons c cs' ih =>
    intro a h
    rw [scanFor, oor_eq_some] at h
    rcases h with h | ⟨_, h⟩
    · exact ⟨c :: cs', h⟩
    · exact ih h

theorem starThenK_some {α : Type} {p : Char → Bool} {k : List Char → Option α} :
    ∀ {cs : List Char} {a : α}, starThenK p k cs = some a → ∃ cs', k cs' = some a := by
  intro cs
  induction cs with
  | nil => intro a h; exact ⟨[], by simpa [starThenK] using h⟩
  | cons c cs' ih =>
    intro a h
    rw [starThenK] at h
    split at h
    · rw [oor_eq_some] at h
      rcases h with h | ⟨_, h⟩
      · exact ih h
      · exact ⟨c :: cs', h⟩
    · exact ⟨c :: cs', h⟩

theorem lazyThen_some {α : Type} {m : List Char → Option α} :
    ∀ {cs : List Char} {a : α}, lazyThen m cs = some a → ∃ cs', m cs' = some a := by
  intro cs
  induction cs with
  | nil => intro a h; exact ⟨[], by simpa [lazyThen] using h⟩
  | cons c cs' ih =>
    intro a h
    rw [lazyThen, oor_eq_some] at h
    rcases h with h | ⟨_, h⟩
    · exact ⟨c :: cs', h⟩
    · split at h
      · cases h
      · exact ih h

-- ===== Claim C1: score_confidence additivity =====

set_option maxRecDepth 4000 in
/-- C1 (amended): score_confidence is purely additive over field presence
(Python truthiness, the spec's "non-None/non-empty") under IEEE-754 binary64
arithmetic: the result depends only on which fields are present and equals
the binary64 evaluation of the sequential sum, in source order, of 0.40 for
email plus 0.25 for phone plus 0.15 for name plus 0.10 for linkedin plus
0.05 for github plus 0.05 when ocr_used is false, clamped to 1.0.  All five
fields present with ocr_used = False yields exactly 1.0; no fields present
with ocr_used = False yields exactly the float 0.05 (the double
3602879701896397/2^56, equal to the literal 0.05's double, last conjunct);
all five fields present with ocr_used = True yields the float
0.9500000000000001 (8556839292003943/2^53), which is neither exactly 0.90
nor exactly 0.95; email and phone with the bonus yields the float
0.7000000000000001 (6305039478318695/2^53), not exactly 0.7. -/
theorem score_confidence_additive :
    (∀ (name email phone linkedin github : Option String) (ocr_used : Bool),
      score_confidence name email phone linkedin github ocr_used =
        scoreOfPresence (pyTruthy email) (pyTruthy phone) (pyTruthy name)
          (pyTruthy linkedin) (pyTruthy github) ocr_used) ∧
    score_confidence (some "John Doe") (some "john@example.com")
      (some "+919876543210") (some "https://www.linkedin.com/in/johndoe")
      (some "https://github.com/johndoe") false = 1 ∧
    score_confidence none none none none none false =
      (3602879701896397 : ℚ) / 2 ^ 56 ∧
    score_confidence (some "John Doe") (some "john@example.com")
      (some "+919876543210") (some "https://www.linkedin.com/in/johndoe")
      (some "https://github.com/johndoe") true = (8556839292003943 : ℚ) / 2 ^ 53 ∧
    score_confidence none (some "john@example.com") (some "+919876543210")
      none none false = (6305039478318695 : ℚ) / 2 ^ 53 ∧
    dyadQ w005 = (3602879701896397 : ℚ) / 2 ^ 56 := by
  refine ⟨fun _ _ _ _ _ _ => rfl, ?_, ?_, ?_, ?_, ?_⟩
  · show scoreOfPresence true true true true true false = 1
    unfold scoreOfPresence
    rw [show scoreD true true true true true false = (4503599627370496, 52) from by decide]
    norm_num [dyadQ]
  · show scoreOfPresence false false false false false false =
      (3602879701896397 : ℚ) / 2 ^ 56
    unfold scoreOfPresence
    rw [show scoreD false false false false false false = (7205759403792794, 57) from by decide]
    norm_num [dyadQ]
  · show scoreOfPresence true true true true true true =
      (8556839292003943 : ℚ) / 2 ^ 53
    unfold scoreOfPresence
    rw [show scoreD true true true true true true = (8556839292003943, 53) from by decide]
    norm_num [dyadQ]
  · show scoreOfPresence true true false false false false =
      (6305039478318695 : ℚ) / 2 ^ 53
    unfold scoreOfPresence
    rw [show scoreD true true false false false false = (6305039478318695, 53) from by decide]
    norm_num [dyadQ]
  · rw [show w005 = (7205759403792794, 57) from by decide]
    norm_num [dyadQ]

set_option maxRecDepth 4000 in
/-- C1 counterexample: with all five fields present and ocr_used = True the
program's binary64 score is 0.9500000000000001 (8556839292003943/2^53),
which is not exactly 0.90 as the claim asserts - neither as the double the
literal 0.9 denotes (8106479329266893/2^53) nor as the exact decimal 9/10 -
and not exactly 0.95 either (double 0.95 is 8556839292003942/2^53; in the
program score == 0.95 is False). -/
theorem score_confidence_ocr_counterexample :
    score_confidence (some "John Doe") (some "john@example.com")
      (some "+919876543210") (some "https://www.linkedin.com/in/johndoe")
      (some "https://github.com/johndoe") true = (8556839292003943 : ℚ) / 2 ^ 53 ∧
    (8556839292003943 : ℚ) / 2 ^ 53 ≠ (8106479329266893 : ℚ) / 2 ^ 53 ∧
    (8556839292003943 : ℚ) / 2 ^ 53 ≠ (9 : ℚ) / 10 ∧
    (8556839292003943 : ℚ) / 2 ^ 53 ≠ (8556839292003942 : ℚ) / 2 ^ 53 ∧
    (8556839292003943 : ℚ) / 2 ^ 53 ≠ (19 : ℚ) / 20 := by
  refine ⟨?_, by norm_num, by norm_num, by norm_num, by norm_num⟩
  show scoreOfPresence true true true true true true = (8556839292003943 : ℚ) / 2 ^ 53
  unfold scoreOfPresence
  rw [show scoreD true true true true true true = (8556839292003943, 53) from by decide]
  norm_num [dyadQ]

-- ===== Claim C9: determinism / idempotence =====

/-- C9: the full extraction pipeline is deterministic and idempotent: for a
fixed input text and OCR flag, running extract_fields, guess_name and
score_confidence twice yields identical results (the embedding is a pure
function of its input; the source's pipeline calls no randomness or time
source). -/
theorem run_pipeline_idempotent :
    ∀ (text : String) (ocr_used : Bool),
      (run_pipeline_twice text ocr_used).1 = (run_pipeline_twice text ocr_used).2 :=
  fun _ _ => rfl

-- ===== Claim C7: unsupported file types short-circuit =====

/-- C7: for every filename whose lower-cased form ends in neither ".pdf" nor
".docx", parse_resume_bytes returns the all-None dict with confidence 0.0,
the single unsupported-file-type error and ocr_used = False, for every
possible behaviour of the two byte decoders (so no decoder and no extractor
is ever consulted). -/
theorem parse_resume_bytes_unsupported :
    ∀ {β : Type} (pdfX : β → Except String (String × Bool))
      (docxX : β → Except String String) (filename : String) (data : β),
      endsWithPy (lowL filename.data) ".pdf".data = false →
      endsWithPy (lowL filename.data) ".docx".data = false →
      parse_resume_bytes pdfX docxX filename data =
        (emptyParsed, ["Unsupported file type: " ++ filename], false) := by
  intro β pdfX docxX filename data h1 h2
  simp [parse_resume_bytes, h1, h2]

/-- C7 witness: a concrete unsupported extension, with decoders that would
return data if they were consulted. -/
theorem parse_resume_bytes_unsupported_witness :
    parse_resume_bytes (fun _ : Unit => Except.ok ("text", true))
      (fun _ : Unit => Except.ok "text") "resume.txt" () =
      (emptyParsed, ["Unsupported file type: resume.txt"], false) :=
  parse_resume_bytes_unsupported _ _ "resume.txt" () (by decide) (by decide)

-- ===== Phone lemmas =====

theorem sep_not_digit {c : Char} (hs : isSepRe c = true) : isDigitC c = false := by
  simp only [isSepRe, isSpacePy, Bool.or_eq_true, beq_iff_eq] at hs
  rcases hs with (((((((((hc | hc) | hc) | hc) | hc) | hc) | hc) | hc) | hc) | hc) <;>
    subst hc <;> rfl

theorem digit_not_sep {c : Char} (h : isDigitC c = true) : isSepRe c = false := by
  cases hs : isSepRe c
  · rfl
  · rw [sep_not_digit hs] at h
    exact Bool.noConfusion h

theorem stripSeps_digits (t : List Char) :
    (stripSeps t).filter isDigitC = t.filter isDigitC := by
  induction t with
  | nil => rfl
  | cons c cs ih =>
    unfold stripSeps at ih ⊢
    rw [List.filter_cons]
    cases hs : isSepRe c
    · simp only [Bool.not_false, if_pos]
      rw [List.filter_cons, List.filter_cons, ih]
    · have hd : isDigitC c = false := sep_not_digit hs
      simp only [Bool.not_true, Bool.false_eq_true, if_false]
      rw [List.filter_cons, hd, ih]
      simp

theorem pyParseE_ok {t n : List Char} (h : pyParseE t = Except.ok n) :
    stripSeps t = '+' :: n ∧ n.all isDigitC = true := by
  unfold pyParseE at h
  split at h
  · next rest heq =>
    split at h
    · next hg =>
      cases h
      simp only [Bool.and_eq_true] at hg
      exact ⟨heq, hg.2⟩
    · cases h
  · cases h

theorem maxRunsAux_len :
    ∀ (cs acc r : List Char), r ∈ maxRunsAux acc cs →
      r.length ≤ acc.length + (cs.filter isDigitC).length := by
  intro cs
  induction cs with
  | nil =>
    intro acc r h
    unfold maxRunsAux at h
    split at h
    · simp at h
    · simp only [List.mem_singleton] at h
      subst h
      simp
  | cons c cs' ih =>
    intro acc r h
    unfold maxRunsAux at h
    rw [List.filter_cons]
    split at h
    · next hd =>
      have := ih (c :: acc) r h
      simp only [hd, if_true, List.length_cons] at this ⊢
      omega
    · next hd =>
      have hd' : isDigitC c = false := Bool.eq_false_iff.mpr hd
      rw [hd']
      simp only [Bool.false_eq_true, if_false]
      split at h
      · have := ih [] r h
        simp only [List.length_nil] at this
        omega
      · rcases List.mem_cons.mp h with rfl | h'
        · simp
        · have := ih [] r h'
          simp only [List.length_nil] at this
          omega

theorem chunk15Aux_nil : ∀ fuel, chunk15Aux fuel [] = [] := by
  intro fuel
  cases fuel <;> rfl

theorem chunk15_nil {r : List Char} (h : r.length < 7) : chunk15 r = [] := by
  unfold chunk15
  cases hf : r.length with
  | zero => rfl
  | succ n =>
    unfold chunk15Aux
    rw [if_neg (by omega)]

theorem chunk15_single {r : List Char} (h7 : 7 ≤ r.length) (h15 : r.length ≤ 15) :
    chunk15 r = [r] := by
  unfold chunk15
  cases hf : r.length with
  | zero => omega
  | succ n =>
    unfold chunk15Aux
    rw [if_pos (by omega)]
    rw [List.take_of_length_le (by omega), List.drop_eq_nil_of_le (by omega)]
    rw [chunk15Aux_nil]

theorem flatMap_eq_nil {α β : Type} (l : List α) (f : α → List β)
    (h : ∀ x ∈ l, f x = []) : l.flatMap f = [] := by
  induction l with
  | nil => rfl
  | cons a l' ih =>
    rw [List.flatMap_cons, h a (List.mem_cons_self a l'), List.nil_append]
    exact ih (fun x hx => h x (List.mem_cons_of_mem a hx))

/-- Fewer than 7 digits in the cleaned text leaves no `\d{7,15}` match. -/
theorem phoneMatches_nil {cleaned : List Char}
    (h : (cleaned.filter isDigitC).length < 7) : phoneMatches cleaned = [] := by
  unfold phoneMatches
  apply flatMap_eq_nil
  intro run hrun
  have hlen : run.length ≤ (cleaned.filter isDigitC).length := by
    simpa using maxRunsAux_len cleaned [] run hrun
  exact chunk15_nil (by omega)

/-- C6: with fewer than 7 digits (after separator stripping) in the input,
normalize_phone returns None. -/
theorem normalize_phone_short :
    ∀ (t : String), (t.data.filter isDigitC).length < 7 → normalize_phone t = none := by
  intro t h
  have hphase2 : phase2 t.data = none := by
    unfold phase2
    rw [phoneMatches_nil (by rw [stripSeps_digits]; exact h)]
    rfl
  have hL : normalize_phoneL t.data = none := by
    unfold normalize_phoneL
    cases hpe : pyParseE t.data with
    | error e => exact hphase2
    | ok n =>
      obtain ⟨hstrip, hall⟩ := pyParseE_ok hpe
      have hn : n.length < 7 := by
        have h1 : n.filter isDigitC = n :=
          List.filter_eq_self.mpr (List.all_eq_true.mp hall)
        have h2 : (stripSeps t.data).filter isDigitC = t.data.filter isDigitC :=
          stripSeps_digits t.data
        rw [hstrip] at h2
        rw [List.filter_cons] at h2
        simp only [show isDigitC '+' = false from rfl, Bool.false_eq_true, if_false] at h2
        rw [h1] at h2
        have := congrArg List.length h2
        omega
      have hv : validNum n = false := by
        unfold validNum
        have hd : decide (n.length = 12) = false := by
          simp only [decide_eq_false_iff_not]
          omega
        rw [hd]
        simp
      show (if validNum n = true then some (fmtE164 n) else phase2 t.data) = none
      rw [hv]
      simp only [Bool.false_eq_true, if_false]
      exact hphase2
  unfold normalize_phone
  rw [hL]

/-- C6 witness at the claim's example input. -/
theorem normalize_phone_short_witness : normalize_phone "12345" = none :=
  normalize_phone_short "12345" (by decide)

theorem maxRunsAux_digits :
    ∀ (cs acc : List Char), cs.all isDigitC = true → (acc = [] → cs ≠ []) →
      maxRunsAux acc cs = [acc.reverse ++ cs] := by
  intro cs
  induction cs with
  | nil =>
    intro acc _ hne
    have : acc ≠ [] := fun he => hne he rfl
    unfold maxRunsAux
    rw [if_neg (by simpa [List.isEmpty_iff] using this)]
    simp
  | cons c cs' ih =>
    intro acc hall _
    simp only [List.all_cons, Bool.and_eq_true] at hall
    unfold maxRunsAux
    rw [if_pos hall.1]
    rw [ih (c :: acc) hall.2 (by simp)]
    simp

/-- A nonempty all-digit cleaned text is one single maximal run. -/
theorem maxRuns_digits {ds : List Char} (hall : ds.all isDigitC = true)
    (hne : ds ≠ []) : maxRuns ds = [ds] := by
  unfold maxRuns
  rw [maxRunsAux_digits ds [] hall (fun _ => hne)]
  simp

/-- C3 (amended): for every 10-digit sequence with a valid Indian mobile
leading digit (6-9 in the modelled numbering plan) and no existing country
code, in any formatting by the stripped separator characters, normalize_phone
returns the ten digits prefixed with +91; in particular on "9876543210" and
"(987) 654-3210" it returns "+919876543210". -/
theorem normalize_phone_ten_digits :
    (∀ (t ds : List Char),
      (∀ c ∈ t, isDigitC c = true ∨ isSepRe c = true) →
      t.filter isDigitC = ds →
      ds.length = 10 →
      (∃ d rest, ds = d :: rest ∧ (d = '6' ∨ d = '7' ∨ d = '8' ∨ d = '9')) →
      normalize_phoneL t = some ('+' :: '9' :: '1' :: ds)) ∧
    normalize_phone "9876543210" = some "+919876543210" ∧
    normalize_phone "(987) 654-3210" = some "+919876543210" := by
  refine ⟨?_, by decide, by decide⟩
  intro t ds hmem hfilter hlen ⟨d, rest, hcons, hd69⟩
  subst hcons
  have hstrip : stripSeps t = d :: rest := by
    unfold stripSeps
    rw [← hfilter]
    apply List.filter_congr
    intro c hc
    rcases hmem c hc with hdig | hsep
    · rw [hdig, digit_not_sep hdig]
      rfl
    · rw [hsep, sep_not_digit hsep]
      rfl
  have hall : (d :: rest).all isDigitC = true := by
    rw [← hfilter]
    rw [List.all_eq_true]
    intro x hx
    exact (List.mem_filter.mp hx).2
  have hne : d :: rest ≠ [] := by simp
  -- step 1 fails: no country code
  have hpe : pyParseE t = Except.error PyExc.numberParseException := by
    unfold pyParseE
    rw [hstrip]
    rcases hd69 with rfl | rfl | rfl | rfl <;> rfl
  -- the cleaned text is one ten-digit match
  have hmatches : phoneMatches (stripSeps t) = [d :: rest] := by
    rw [hstrip]
    unfold phoneMatches
    rw [maxRuns_digits hall hne]
    rw [List.flatMap_cons]
    rw [chunk15_single (by omega) (by omega)]
    simp
  -- the +91 candidate parses and validates
  have hcand : mkCand (d :: rest) = '+' :: '9' :: '1' :: d :: rest := by
    unfold mkCand
    rw [if_pos hlen]
  have hid : stripSeps ('+' :: '9' :: '1' :: d :: rest) = '+' :: '9' :: '1' :: d :: rest := by
    unfold stripSeps
    apply List.filter_eq_self.mpr
    intro a ha
    rcases List.mem_cons.mp ha with rfl | ha
    · rfl
    · rcases List.mem_cons.mp ha with rfl | ha
      · rfl
      · rcases List.mem_cons.mp ha with rfl | ha
        · rfl
        · rw [digit_not_sep (List.all_eq_true.mp hall a ha)]
          rfl
  have hguard : (!(('9' :: '1' :: d :: rest).isEmpty) && ('9' :: '1' :: d :: rest).all isDigitC) = true := by
    simp only [Bool.and_eq_true]
    refine ⟨rfl, ?_⟩
    simp only [List.all_cons, Bool.and_eq_true] at hall ⊢
    exact ⟨rfl, rfl, hall⟩
  have hpc : pyParseE ('+' :: '9' :: '1' :: d :: rest) = Except.ok ('9' :: '1' :: d :: rest) := by
    unfold pyParseE
    rw [hid]
    show (if (!(('9' :: '1' :: d :: rest).isEmpty) && ('9' :: '1' :: d :: rest).all isDigitC) = true
          then Except.ok ('9' :: '1' :: d :: rest)
          else Except.error PyExc.numberParseException) = Except.ok ('9' :: '1' :: d :: rest)
    rw [if_pos hguard]
  have hvalid : validNum ('9' :: '1' :: d :: rest) = true := by
    unfold validNum
    simp only [Bool.and_eq_true]
    refine ⟨⟨⟨?_, ?_⟩, ?_⟩, ?_⟩
    · simp only [decide_eq_true_eq, List.length_cons]
      simp only [List.length_cons] at hlen
      omega
    · rfl
    · rcases hd69 with rfl | rfl | rfl | rfl <;> rfl
    · simp only [List.all_cons, Bool.and_eq_true] at hall ⊢
      exact ⟨rfl, rfl, hall⟩
  -- assemble
  unfold normalize_phoneL
  rw [hpe]
  unfold phase2
  rw [hmatches]
  unfold candLoop
  rw [hcand, hpc]
  show (if validNum ('9' :: '1' :: d :: rest) = true
        then some (fmtE164 ('9' :: '1' :: d :: rest)) else candLoop []) = _
  rw [hvalid]
  simp [fmtE164]

/-- C3 counterexample: a 10-digit sequence whose +91 form is not a valid
number (leading digit 0) yields None, not "+910000000000". -/
theorem normalize_phone_ten_digits_counterexample :
    normalize_phone "0000000000" = none ∧
    normalize_phone "0000000000" ≠ some "+910000000000" := by
  constructor
  · decide
  · decide

/-- C3 witness: the universal part applied to the separator formatting
"98765 43210" from the repository's tests. -/
theorem normalize_phone_ten_digits_witness :
    normalize_phoneL "98765 43210".data = some ('+' :: '9' :: '1' :: "9876543210".data) :=
  normalize_phone_ten_digits.1 "98765 43210".data "9876543210".data
    (by decide) (by decide) (by decide)
    ⟨'9', "876543210".data, by decide, by decide⟩

theorem candLoopE_ok : ∀ ms, candLoopE ms = Except.ok (candLoop ms) := by
  intro ms
  induction ms with
  | nil => rfl
  | cons m ms ih =>
    unfold candLoopE candLoop
    cases hpe : pyParseE (mkCand m) with
    | ok n =>
      cases hv : validNum n
      · simp only [hv, Bool.false_eq_true, if_false]
        rw [ih]
        rfl
      · simp only [hv, if_true]
        rfl
    | error e =>
      cases e
      rw [ih]
      rfl

theorem phase2E_ok (t : List Char) : phase2E t = Except.ok (phase2 t) :=
  candLoopE_ok _

theorem candLoop_shape :
    ∀ (ms : List (List Char)) (s : List Char), candLoop ms = some s →
      ∃ n, s = '+' :: n ∧ n.all isDigitC = true := by
  intro ms
  induction ms with
  | nil => intro s h; cases h
  | cons m ms ih =>
    intro s h
    unfold candLoop at h
    split at h
    · next n heq =>
      split at h
      · cases h
        exact ⟨n, rfl, (pyParseE_ok heq).2⟩
      · exact ih s h
    · exact ih s h

theorem normalize_phoneL_shape :
    ∀ (t s : List Char), normalize_phoneL t = some s →
      ∃ n, s = '+' :: n ∧ n.all isDigitC = true := by
  intro t s h
  unfold normalize_phoneL at h
  split at h
  · next n heq =>
    split at h
    · cases h
      exact ⟨n, rfl, (pyParseE_ok heq).2⟩
    · exact candLoop_shape _ s h
  · exact candLoop_shape _ s h

/-- C8: normalize_phone is total and never raises.  (1) In the
exception-tracking embedding, where the modelled phonenumbers.parse raises
NumberParseException exactly where the library's documented contract does,
every input yields `Except.ok` of the plain result - no exception escapes the
source's two try/except blocks.  (2) Every Some result is an E.164 string
(a `+` followed by digits).  (3) A candidate whose validated parse fails (or
does not validate) is silently skipped in favour of the remaining
candidates. -/
theorem normalize_phone_total :
    (∀ t : String, normalize_phoneE t.data = Except.ok (normalize_phoneL t.data)) ∧
    (∀ (t s : String), normalize_phone t = some s →
      ∃ n, s.data = '+' :: n ∧ n.all isDigitC = true) ∧
    (∀ (m : List Char) (ms : List (List Char)),
      (∀ n, pyParseE (mkCand m) = Except.ok n → validNum n = false) →
      candLoop (m :: ms) = candLoop ms) := by
  refine ⟨?_, ?_, ?_⟩
  · intro t
    unfold normalize_phoneE normalize_phoneL
    cases hpe : pyParseE t.data with
    | ok n =>
      cases hv : validNum n
      · simp only [hv, Bool.false_eq_true, if_false]
        rw [phase2E_ok]
        rfl
      · simp only [hv, if_true]
        rfl
    | error e =>
      cases e
      rw [phase2E_ok]
      rfl
  · intro t s h
    unfold normalize_phone at h
    split at h
    · next a heq =>
      cases h
      exact normalize_phoneL_shape t.data a heq
    · cases h
  · intro m ms hfail
    show (match pyParseE (mkCand m) with
      | Except.ok n => if validNum n = true then some (fmtE164 n) else candLoop ms
      | Except.error _ => candLoop ms) = candLoop ms
    cases hpe : pyParseE (mkCand m) with
    | ok n =>
      show (if validNum n = true then some (fmtE164 n) else candLoop ms) = candLoop ms
      rw [hfail n hpe]
      simp
    | error e => rfl

/-- C8 witness: the three parts at concrete inputs - a malformed text, the
valid example number, and a failing candidate that is skipped. -/
theorem normalize_phone_total_witness :
    (normalize_phoneE "not a phone".data = Except.ok (normalize_phoneL "not a phone".data)) ∧
    (∃ n, ("+919876543210" : String).data = '+' :: n ∧ n.all isDigitC = true) ∧
    candLoop ["0000000000".data] = candLoop [] := by
  refine ⟨normalize_phone_total.1 "not a phone",
    normalize_phone_total.2.1 "9876543210" "+919876543210" (by decide),
    normalize_phone_total.2.2 "0000000000".data [] ?_⟩
  intro n h
  rw [show pyParseE (mkCand "0000000000".data) = Except.ok ("910000000000".data) from rfl] at h
  cases h
  decide

-- ===== guess_name lemmas =====

theorem splitNl_append {line : List Char} (rest : List Char) (h : '\n' ∉ line) :
    splitNl (line ++ '\n' :: rest) = line :: splitNl rest := by
  induction line with
  | nil =>
    show splitNl ('\n' :: rest) = [] :: splitNl rest
    conv_lhs => unfold splitNl
    rw [if_pos rfl]
  | cons c cs ih =>
    have hc : ¬(c = '\n') := fun he => h (he ▸ List.mem_cons_self c cs)
    have hcs : '\n' ∉ cs := fun hm => h (List.mem_cons_of_mem c hm)
    show splitNl (c :: (cs ++ '\n' :: rest)) = (c :: cs) :: splitNl rest
    conv_lhs => unfold splitNl
    rw [if_neg hc, ih hcs]

theorem nameFilterS_spec {s0 s : List Char} (h : nameFilterS s0 = some s) :
    s = s0 ∧ s.isEmpty = false ∧ s.contains '@' = false ∧
    startsPlusDigit s = false ∧ s.length ≤ 50 ∧
    2 ≤ (wordsPy s).length ∧ (wordsPy s).length ≤ 4 ∧
    (wordsPy s).all wordHeadUpper = true := by
  unfold nameFilterS at h
  split at h
  · cases h
  · next hemp =>
    split at h
    · cases h
    · next hskip =>
      split at h
      · next hacc =>
        cases h
        have hemp' : s0.isEmpty = false := by
          cases hx : s0.isEmpty
          · rfl
          · exact absurd hx hemp
        simp only [Bool.or_eq_true, not_or] at hskip
        obtain ⟨⟨hat, hpd⟩, hdec⟩ := hskip
        have hat' : s0.contains '@' = false := by
          cases hx : s0.contains '@'
          · rfl
          · exact absurd hx hat
        have hpd' : startsPlusDigit s0 = false := by
          cases hx : startsPlusDigit s0
          · rfl
          · exact absurd hx hpd
        have hlen : s0.length ≤ 50 := by
          by_contra hgt
          exact hdec (decide_eq_true (by omega))
        simp only [Bool.and_eq_true, decide_eq_true_eq] at hacc
        exact ⟨rfl, hemp', hat', hpd', hlen, hacc.1.1, hacc.1.2, hacc.2⟩
      · cases h

theorem nameFilter_spec {c s : List Char} (h : nameFilter c = some s) :
    s = stripPy c ∧ s.isEmpty = false ∧ s.contains '@' = false ∧
    startsPlusDigit s = false ∧ s.length ≤ 50 ∧
    2 ≤ (wordsPy s).length ∧ (wordsPy s).length ≤ 4 ∧
    (wordsPy s).all wordHeadUpper = true :=
  nameFilterS_spec h

theorem scanCands_mem :
    ∀ (cl : List (List Char)) (s : List Char), scanCands cl = some s →
      ∃ c, c ∈ cl ∧ nameFilter c = some s := by
  intro cl
  induction cl with
  | nil => intro s h; cases h
  | cons c cs ih =>
    intro s h
    rw [scanCands, oor_eq_some] at h
    rcases h with h | ⟨_, h⟩
    · exact ⟨c, List.mem_cons_self c cs, h⟩
    · obtain ⟨c', hm, hf⟩ := ih s h
      exact ⟨c', List.mem_cons_of_mem c hm, hf⟩

theorem contactAdjAux_mem (lines : List (List Char)) :
    ∀ (ls : List (List Char)) (i : Nat) (x : List Char), x ∈ contactAdjAux lines i ls →
      ∃ j, j < i + ls.length ∧ lines.get? j = some x := by
  intro ls
  induction ls with
  | nil => intro i x h; exact absurd h (List.not_mem_nil x)
  | cons l ls ih =>
    intro i x h
    unfold contactAdjAux at h
    split at h
    · split at h
      · next prev hprev =>
        rcases List.mem_cons.mp h with rfl | h'
        · exact ⟨i - 1, by simp only [List.length_cons]; omega, hprev⟩
        · obtain ⟨j, hj, hg⟩ := ih (i + 1) x h'
          exact ⟨j, by simp only [List.length_cons] at hj ⊢; omega, hg⟩
      · obtain ⟨j, hj, hg⟩ := ih (i + 1) x h
        exact ⟨j, by simp only [List.length_cons] at hj ⊢; omega, hg⟩
    · obtain ⟨j, hj, hg⟩ := ih (i + 1) x h
      exact ⟨j, by simp only [List.length_cons] at hj ⊢; omega, hg⟩

theorem get?_take_lt {α : Type} :
    ∀ (l : List α) (n k : Nat), k < n → (l.take n).get? k = l.get? k := by
  intro l
  induction l with
  | nil => intro n k _; simp
  | cons a l ih =>
    intro n k hk
    cases n with
    | zero => omega
    | succ n =>
      cases k with
      | zero => rfl
      | succ k => exact ih n k (by omega)

theorem guessNameL_mem {cs s : List Char} (h : guessNameL cs = some s) :
    ∃ l, l ∈ (splitNl cs).take 50 ∧ nameFilter l = some s := by
  unfold guessNameL at h
  obtain ⟨c, hm, hf⟩ := scanCands_mem _ _ h
  rcases List.mem_append.mp hm with h30 | hadj
  · refine ⟨c, ?_, hf⟩
    have ht : (splitNl cs).take 30 = ((splitNl cs).take 50).take 30 := by
      rw [List.take_take]
      norm_num
    exact List.take_subset 30 _ (ht ▸ h30)
  · obtain ⟨j, hj, hg⟩ := contactAdjAux_mem (splitNl cs) _ 0 c hadj
    have hj50 : j < 50 := by
      have := List.length_take_le 50 (splitNl cs)
      omega
    have hmem : c ∈ (splitNl cs).take 50 := by
      have hgt : ((splitNl cs).take 50).get? j = some c := by
        rw [get?_take_lt _ 50 j hj50]
        exact hg
      exact List.get?_mem hgt
    exact ⟨c, hmem, hf⟩

/-- C10: every guessed name is the whitespace-trimmed content of one of the
first 50 lines of the input, has 2 to 4 words, is at most 50 characters long
and contains no `@`. -/
theorem guess_name_structural :
    ∀ (t s : String), guess_name t = some s →
      ∃ l, l ∈ (splitNl t.data).take 50 ∧ s.data = stripPy l ∧
        2 ≤ (wordsPy s.data).length ∧ (wordsPy s.data).length ≤ 4 ∧
        s.data.length ≤ 50 ∧ s.data.contains '@' = false := by
  intro t s h
  unfold guess_name at h
  split at h
  · next a heq =>
    cases h
    obtain ⟨l, hl, hf⟩ := guessNameL_mem heq
    obtain ⟨hs, _, hat, _, hlen, h2, h4, _⟩ := nameFilter_spec hf
    exact ⟨l, hl, hs ▸ ⟨rfl, h2, h4, hlen, hat⟩⟩
  · cases h

/-- C10 witness at a concrete resume text. -/
theorem guess_name_structural_witness :
    ∃ l, l ∈ (splitNl ("John Michael Doe\nEmail: john@example.com" : String).data).take 50 ∧
      ("John Michael Doe" : String).data = stripPy l ∧
      2 ≤ (wordsPy ("John Michael Doe" : String).data).length ∧
      (wordsPy ("John Michael Doe" : String).data).length ≤ 4 ∧
      ("John Michael Doe" : String).data.length ≤ 50 ∧
      ("John Michael Doe" : String).data.contains '@' = false :=
  guess_name_structural "John Michael Doe\nEmail: john@example.com" "John Michael Doe"
    (by decide)

/-- C5 (amended): guess_name accepts any first line of 2-4 words whose words
each start with an uppercase character - including fully upper-case lines:
with first line "JANE SMITH" followed by contact details it returns
"JANE SMITH", not None (the uppercase-first-character filter does not reject
all-caps names; the strict Title-Case regex in the source is dead code). -/
theorem guess_name_first_line :
    (∀ (line rest : List Char),
      '\n' ∉ line → stripPy line = line → line.isEmpty = false →
      line.contains '@' = false → startsPlusDigit line = false → line.length ≤ 50 →
      2 ≤ (wordsPy line).length → (wordsPy line).length ≤ 4 →
      (wordsPy line).all wordHeadUpper = true →
      guessNameL (line ++ '\n' :: rest) = some line) ∧
    guess_name "JANE SMITH\nEmail: jane@example.com\nPhone: 9876543210" =
      some "JANE SMITH" := by
  refine ⟨?_, by decide⟩
  intro line rest hnl hstrip hne hat hpd hlen h2 h4 hup
  have hnf : nameFilter line = some line := by
    unfold nameFilter
    rw [hstrip]
    unfold nameFilterS
    rw [hne, hat, hpd]
    have hdec : decide (50 < line.length) = false := by
      simp only [decide_eq_false_iff_not]
      omega
    rw [hdec]
    have hacc : ((2 ≤ (wordsPy line).length && (wordsPy line).length ≤ 4)
        && (wordsPy line).all wordHeadUpper) = true := by
      simp only [Bool.and_eq_true, decide_eq_true_eq]
      exact ⟨⟨h2, h4⟩, hup⟩
    simp only [Bool.or_false, Bool.false_eq_true, if_false, hacc, if_true]
  unfold guessNameL
  rw [splitNl_append rest hnl]
  show oor (nameFilter line)
    (scanCands ((splitNl rest).take 29 ++ contactAdj (line :: splitNl rest))) = some line
  rw [hnf]
  rfl

/-- C5 counterexample: on the claim's own example - first line "JANE SMITH"
followed by contact details - guess_name returns "JANE SMITH", not None. -/
theorem guess_name_allcaps_counterexample :
    guess_name "JANE SMITH\nEmail: jane@example.com\nPhone: 9876543210" =
      some "JANE SMITH" ∧
    guess_name "JANE SMITH\nEmail: jane@example.com\nPhone: 9876543210" ≠ none := by
  refine ⟨by decide, ?_⟩
  intro h
  rw [show guess_name "JANE SMITH\nEmail: jane@example.com\nPhone: 9876543210" =
    some "JANE SMITH" from by decide] at h
  cases h

/-- C5 witness: the universal part applied to the all-caps line. -/
theorem guess_name_first_line_witness :
    guessNameL ("JANE SMITH".data ++ '\n' :: "Email: jane@example.com".data) =
      some ("JANE SMITH".data) :=
  guess_name_first_line.1 "JANE SMITH".data "Email: jane@example.com".data
    (by decide) (by decide) (by decide) (by decide) (by decide) (by decide)
    (by decide) (by decide) (by decide)

-- ===== Claim C4: extract_email mailto priority and lowercasing =====

theorem extEmL_low {cs l : List Char} (h : extEmL cs = some l) : ∃ a, l = lowL a := by
  unfold extEmL at h
  split at h
  · cases h
    exact ⟨_, rfl⟩
  · split at h
    · cases h
      exact ⟨_, rfl⟩
    · split at h
      · cases h
        exact ⟨_, rfl⟩
      · cases h

/-- C4: whenever either mailto pattern matches anywhere in the text, that
tier's first capture (lower-cased) is the result - the keyword-context and
general-grammar tiers are never consulted; every non-None result of
extract_email is already lower-case; and on a text whose mailto address is
preceded by a different plain address, the mailto address wins. -/
theorem extract_email_mailto :
    (∀ (t : String) (a : List Char), emMailtoTier t.data = some a →
      extract_email t = some (String.mk (lowL a))) ∧
    (∀ (t r : String), extract_email t = some r → lowL r.data = r.data) ∧
    extract_email
      "Contact alice@wonder.org first, or <a href=\"mailto:Bob.Jones@Example.COM\">mail me</a>" =
      some "bob.jones@example.com" := by
  refine ⟨?_, ?_, by decide⟩
  · intro t a h
    unfold extract_email extEmL
    rw [h]
  · intro t r h
    unfold extract_email at h
    split at h
    · next l heq =>
      cases h
      obtain ⟨a, ha⟩ := extEmL_low heq
      show lowL (String.mk l).data = (String.mk l).data
      rw [show (String.mk l).data = l from rfl, ha, lowL_idem]
    · cases h

/-- C4 witness: both universal parts at concrete inputs. -/
theorem extract_email_mailto_witness :
    extract_email "href=\"mailto:UPPER@CASE.ORG\"" =
      some (String.mk (lowL "UPPER@CASE.ORG".data)) ∧
    lowL ("john.doe@example.com" : String).data = ("john.doe@example.com" : String).data :=
  ⟨extract_email_mailto.1 "href=\"mailto:UPPER@CASE.ORG\"" "UPPER@CASE.ORG".data (by decide),
   extract_email_mailto.2.1 "Contact me at john.doe@example.com for more info"
     "john.doe@example.com" (by decide)⟩

-- ===== Claim C2: profile URL scheme lemmas =====

theorem lowL_append (a b : List Char) : lowL (a ++ b) = lowL a ++ lowL b :=
  List.map_append lowC a b

theorem liRest_http {pre r : List Char} {pr : List Char × List Char × List Char}
    (hp : "http".data.isPrefixOf (lowL pre) = true)
    (h : liRest pre r = some pr) : "http".data.isPrefixOf (lowL pr.1) = true := by
  unfold liRest at h
  split at h
  · next d r1 _ =>
    split at h
    · next u r2 _ =>
      cases h
      show "http".data.isPrefixOf (lowL (pre ++ d ++ u)) = true
      rw [lowL_append, lowL_append]
      exact isPrefixOf_append _ (isPrefixOf_append _ hp)
    · cases h
  · cases h

theorem liWww_http {pre r : List Char} {pr : List Char × List Char × List Char}
    (hp : "http".data.isPrefixOf (lowL pre) = true)
    (h : liWww pre r = some pr) : "http".data.isPrefixOf (lowL pr.1) = true := by
  unfold liWww at h
  split at h
  · next w r1 _ =>
    rw [oor_eq_some] at h
    rcases h with h | ⟨_, h⟩
    · exact liRest_http (by rw [lowL_append]; exact isPrefixOf_append _ hp) h
    · exact liRest_http hp h
  · exact liRest_http hp h

theorem matchLiUrl_http {cs : List Char} {pr : List Char × List Char × List Char}
    (h : matchLiUrl cs = some pr) : "http".data.isPrefixOf (lowL pr.1) = true := by
  unfold matchLiUrl at h
  split at h
  · next m r heq =>
    exact liWww_http (by rw [(eatCI_spec heq).1]; decide) h
  · split at h
    · next m r heq =>
      exact liWww_http (by rw [(eatCI_spec heq).1]; decide) h
    · cases h

theorem liUrlFst_http {r u : List Char} (h : liUrlFst r = some u) :
    "http".data.isPrefixOf (lowL u) = true := by
  unfold liUrlFst at h
  split at h
  · next m u' r' heq =>
    cases h
    exact matchLiUrl_http heq
  · cases h

theorem liOptHref_http {r u : List Char} (h : liOptHref r = some u) :
    "http".data.isPrefixOf (lowL u) = true := by
  unfold liOptHref at h
  split at h
  · next r1 _ =>
    split at h
    · next q r2 =>
      split at h
      · rw [oor_eq_some] at h
        rcases h with h | ⟨_, h⟩
        · exact liUrlFst_http h
        · exact liUrlFst_http h
      · exact liUrlFst_http h
    · exact liUrlFst_http h
  · exact liUrlFst_http h

theorem liKwAt_http {cs u : List Char} (h : liKwAt cs = some u) :
    "http".data.isPrefixOf (lowL u) = true := by
  unfold liKwAt at h
  rw [oor_eq_some] at h
  have tail : ∀ {r : List Char}, starThenK isSpColonC (lazyThen liOptHref) r = some u →
      "http".data.isPrefixOf (lowL u) = true := by
    intro r hr
    obtain ⟨r1, h1⟩ := starThenK_some hr
    obtain ⟨r2, h2⟩ := lazyThen_some h1
    exact liOptHref_http h2
  rcases h with h | ⟨_, h⟩
  · split at h
    · exact tail h
    · cases h
  · split at h
    · next r heq =>
      obtain ⟨r1, h1⟩ := starThenK_some h
      split at h1
      · exact tail h1
      · cases h1
    · cases h

theorem liFix_http (u : List Char) : "http".data.isPrefixOf (lowL (liFix u)) = true := by
  unfold liFix
  split
  · next hu =>
    have := isPrefixOf_lowL hu
    rwa [show lowL "http".data = "http".data from rfl] at this
  · rw [lowL_append]
    exact isPrefixOf_append _ (by decide)

theorem li_built_http (u : List Char) :
    "http".data.isPrefixOf (lowL ("https://www.linkedin.com/in/".data ++ u)) = true := by
  rw [lowL_append]
  exact isPrefixOf_append _ (by decide)

theorem extLiL_http {cs r : List Char} (h : extLiL cs = some r) :
    "http".data.isPrefixOf (lowL r) = true := by
  unfold extLiL at h
  split at h
  · cases h
    exact liFix_http _
  · split at h
    · cases h
      exact liFix_http _
    · split at h
      · next heq =>
        cases h
        obtain ⟨cs', h'⟩ := scanFor_some heq
        exact liKwAt_http h'
      · split at h
        · cases h
          exact li_built_http _
        · split at h
          · cases h
            exact li_built_http _
          · split at h
            · cases h
              exact li_built_http _
            · split at h
              · cases h
                exact li_built_http _
              · split at h
                · obtain ⟨cs', h'⟩ := scanFor_some h
                  exact liUrlFst_http h'
                · cases h

theorem ghUserThen_ex {α : Type} {k : List Char → List Char → Option α}
    {cs : List Char} {a : α} (h : ghUserThen k cs = some a) :
    ∃ u r, k u r = some a := by
  unfold ghUserThen at h
  split at h
  · cases h
  · next c rest =>
    split at h
    · have hm := firstSome_eq_some h
      rw [List.mem_map] at hm
      obtain ⟨p, _, hp⟩ := hm
      exact ⟨c :: p.1, p.2, hp⟩
    · cases h

theorem ghRest_http {α : Type} {k : List Char → List Char → List Char → Option α}
    {pre r : List Char} {a : α}
    (hp : "http".data.isPrefixOf (lowL pre) = true)
    (h : ghRest k pre r = some a) :
    ∃ m u r2, "http".data.isPrefixOf (lowL m) = true ∧ k m u r2 = some a := by
  unfold ghRest at h
  split at h
  · next d r1 _ =>
    obtain ⟨u, r2, hk⟩ := ghUserThen_ex h
    refine ⟨pre ++ d ++ u, u, r2, ?_, hk⟩
    rw [lowL_append, lowL_append]
    exact isPrefixOf_append _ (isPrefixOf_append _ hp)
  · cases h

theorem ghWww_http {α : Type} {k : List Char → List Char → List Char → Option α}
    {pre r : List Char} {a : α}
    (hp : "http".data.isPrefixOf (lowL pre) = true)
    (h : ghWww k pre r = some a) :
    ∃ m u r2, "http".data.isPrefixOf (lowL m) = true ∧ k m u r2 = some a := by
  unfold ghWww at h
  split at h
  · next w r1 _ =>
    rw [oor_eq_some] at h
    rcases h with h | ⟨_, h⟩
    · exact ghRest_http (by rw [lowL_append]; exact isPrefixOf_append _ hp) h
    · exact ghRest_http hp h
  · exact ghRest_http hp h

theorem matchGhUrl_http {α : Type} {k : List Char → List Char → List Char → Option α}
    {cs : List Char} {a : α} (h : matchGhUrl k cs = some a) :
    ∃ m u r2, "http".data.isPrefixOf (lowL m) = true ∧ k m u r2 = some a := by
  unfold matchGhUrl at h
  split at h
  · next m r heq =>
    exact ghWww_http (by rw [(eatCI_spec heq).1]; decide) h
  · split at h
    · next m r heq =>
      exact ghWww_http (by rw [(eatCI_spec heq).1]; decide) h
    · cases h

theorem ghUrlFst_http {r u : List Char}
    (h : matchGhUrl (fun m _ _ => some m) r = some u) :
    "http".data.isPrefixOf (lowL u) = true := by
  obtain ⟨m, u', r2, hpre, hk⟩ := matchGhUrl_http h
  cases hk
  exact hpre

theorem ghOptHref_http {r u : List Char} (h : ghOptHref r = some u) :
    "http".data.isPrefixOf (lowL u) = true := by
  unfold ghOptHref at h
  split at h
  · next r1 _ =>
    split at h
    · next q r2 =>
      split at h
      · rw [oor_eq_some] at h
        rcases h with h | ⟨_, h⟩
        · exact ghUrlFst_http h
        · exact ghUrlFst_http h
      · exact ghUrlFst_http h
    · exact ghUrlFst_http h
  · exact ghUrlFst_http h

theorem ghKwAt_http {cs u : List Char} (h : ghKwAt cs = some u) :
    "http".data.isPrefixOf (lowL u) = true := by
  unfold ghKwAt at h
  rw [oor_eq_some] at h
  have tail : ∀ {r : List Char}, starThenK isSpColonC (lazyThen ghOptHref) r = some u →
      "http".data.isPrefixOf (lowL u) = true := by
    intro r hr
    obtain ⟨r1, h1⟩ := starThenK_some hr
    obtain ⟨r2, h2⟩ := lazyThen_some h1
    exact ghOptHref_http h2
  rcases h with h | ⟨_, h⟩
  · split at h
    · exact tail h
    · cases h
  · split at h
    · next r heq =>
      obtain ⟨r1, h1⟩ := starThenK_some h
      split at h1
      · exact tail h1
      · cases h1
    · cases h

theorem ghFix_http (u : List Char) : "http".data.isPrefixOf (lowL (ghFix u)) = true := by
  unfold ghFix
  split
  · next hu =>
    have := isPrefixOf_lowL hu
    rwa [show lowL "http".data = "http".data from rfl] at this
  · rw [lowL_append]
    exact isPrefixOf_append _ (by decide)

theorem gh_built_http (u : List Char) :
    "http".data.isPrefixOf (lowL ("https://github.com/".data ++ u)) = true := by
  rw [lowL_append]
  exact isPrefixOf_append _ (by decide)

theorem extGhL_http {cs r : List Char} (h : extGhL cs = some r) :
    "http".data.isPrefixOf (lowL r) = true := by
  unfold extGhL at h
  split at h
  · cases h
    exact ghFix_http _
  · split at h
    · cases h
      exact ghFix_http _
    · split at h
      · next heq =>
        cases h
        obtain ⟨cs', h'⟩ := scanFor_some heq
        exact ghKwAt_http h'
      · split at h
        · cases h
          exact gh_built_http _
        · split at h
          · cases h
            exact gh_built_http _
          · split at h
            · cases h
              exact gh_built_http _
            · split at h
              · obtain ⟨cs', h'⟩ := scanFor_some h
                exact ghUrlFst_http h'
              · cases h

/-- C2 (amended): every non-None result of extract_linkedin and
extract_github begins, case-insensitively, with "http".  Bare domain-relative
matches are canonicalized to fully-qualified `https://` URLs (for LinkedIn
with the `www.` subdomain), and a prose `http://` URL matched by the
bare-pattern tier is likewise rebuilt as an `https://` URL; but the
`https://` (and `www.`) guarantee is not universal: the href tier returns a
capture that already starts with the literal "http" unchanged (so an
href-embedded `http://` URL is returned verbatim, see the counterexample),
and the keyword-context tier returns the matched URL with its original
scheme and casing (last conjunct). -/
theorem extract_profile_urls_http :
    (∀ (t r : String), extract_linkedin t = some r →
      "http".data.isPrefixOf (lowL r.data) = true) ∧
    (∀ (t r : String), extract_github t = some r →
      "http".data.isPrefixOf (lowL r.data) = true) ∧
    extract_linkedin "linkedin.com/in/johndoe" = some "https://www.linkedin.com/in/johndoe" ∧
    extract_github "github.com/johndoe" = some "https://github.com/johndoe" ∧
    extract_linkedin "http://linkedin.com/in/john" = some "https://www.linkedin.com/in/john" ∧
    extract_github "http://github.com/john" = some "https://github.com/john" ∧
    extract_linkedin "linkedin HTTP://WWW.LINKEDIN.COM/IN/JOHN" =
      some "HTTP://WWW.LINKEDIN.COM/IN/JOHN" := by
  refine ⟨?_, ?_, by decide, by decide, by decide, by decide, by decide⟩
  · intro t r h
    unfold extract_linkedin at h
    split at h
    · next a heq =>
      cases h
      exact extLiL_http heq
    · cases h
  · intro t r h
    unfold extract_github at h
    split at h
    · next a heq =>
      cases h
      exact extGhL_http heq
    · cases h

/-- C2 counterexample: an href-embedded `http://` URL is returned verbatim by
both extractors - not an `https://` URL, and for LinkedIn without the `www.`
subdomain. -/
theorem extract_profile_urls_counterexample :
    extract_linkedin "href=\"http://linkedin.com/in/john\"" =
      some "http://linkedin.com/in/john" ∧
    "https://".data.isPrefixOf ("http://linkedin.com/in/john" : String).data = false ∧
    extract_github "href=\"http://github.com/john\"" = some "http://github.com/john" ∧
    "https://".data.isPrefixOf ("http://github.com/john" : String).data = false :=
  ⟨by decide, by decide, by decide, by decide⟩

/-- C2 witness: the universal parts at concrete inputs. -/
theorem extract_profile_urls_http_witness :
    "http".data.isPrefixOf (lowL ("https://www.linkedin.com/in/johndoe" : String).data) = true ∧
    "http".data.isPrefixOf (lowL ("https://github.com/johndoe" : String).data) = true :=
  ⟨extract_profile_urls_http.1 "linkedin.com/in/johndoe"
     "https://www.linkedin.com/in/johndoe" (by decide),
   extract_profile_urls_http.2.1 "github.com/johndoe"
     "https://github.com/johndoe" (by decide)⟩
